import Mathlib

/-!
Shallow embedding of the core behaviours of the `madam` media-asset toolkit:

* the `FFMetadataParser` of `madam/ffmpeg.py` — header check, comment and
  blank skipping, section lines, key=value lines, escape handling, line
  continuations, and the parser's mutable mapping state;
* the asset-store contract of `madam.core` — this module is not part of the
  source tree (only its tests are), so the store is modelled from the
  specification;
* the argument-list construction of `FFmpegProcessor.resize` and
  `FFmpegMetadataProcessor.combine`.

Python strings are modelled as `List Char`; Python dicts (which preserve
insertion order and overwrite in place) as association lists updated by
`setKey`.
-/

/-- Errors raised by the embedded code.  Each constructor corresponds to a
distinct `raise` site in `madam/ffmpeg.py` (or, for the store, to the error
kind named by the specification). -/
inductive MErr where
  | badHeader (line : List Char)
  | badVersion (version : Nat)
  | invalidEscape (c : Char)
  | missingEscape (c : Char)
  | invalidSyntax (line : List Char)
  | stopIteration
  | valueError (msg : String)
  | operatorError (msg : String)
  | unsupportedFormatError (msg : String)
  | notFoundError
deriving DecidableEq, Repr

/-- A line of text, as a list of characters. -/
abbrev Chars := List Char

/-- A parsed section: key to value, in insertion order (a Python dict). -/
abbrev Sect := List (Chars × Chars)

/-- The parser's `__metadata` mapping: section name to section. -/
abbrev Meta := List (Chars × Sect)

/-- Boolean test for `Except.ok`. -/
def exceptOk {ε α : Type} : Except ε α → Bool
  | .ok _ => true
  | .error _ => false

/-- Boolean test for `Except.error`. -/
def exceptErr {ε α : Type} : Except ε α → Bool
  | .ok _ => false
  | .error _ => true

/-- Python dict assignment `m[k] = v`: overwrite in place if the key is
present, otherwise append at the end. -/
def setKey {α β : Type} [DecidableEq α] (m : List (α × β)) (k : α) (v : β) :
    List (α × β) :=
  match m with
  | [] => [(k, v)]
  | (k2, v2) :: rest => if k2 = k then (k, v) :: rest else (k2, v2) :: setKey rest k v

/-- Strip a literal leading pattern from a string
(`None` when the string does not start with the pattern). -/
def stripLead : List Char → List Char → Option (List Char)
  | [], s => some s
  | _ :: _, [] => none
  | p :: ps, c :: cs => if c = p then stripLead ps cs else none

/-- Digits-only string to number, as Python `int` does on a decimal string. -/
def digitsToNat (l : List Char) : Nat :=
  l.foldl (fun n c => 10 * n + (c.toNat - '0'.toNat)) 0

/-- `HEADER_PATTERN = ^;FFMETADATA(?P\<version>\d+)$` from `ffmpeg.py:183`:
the version number when the whole line matches, else `none`. -/
def headerVersion (l : Chars) : Option Nat :=
  match stripLead (";FFMETADATA".toList) l with
  | some rest => if rest ≠ [] ∧ rest.all Char.isDigit then some (digitsToNat rest) else none
  | none => none

/-- `SUPPORTED_VERSIONS = 1,` from `ffmpeg.py:181`. -/
def supportedVersions : List Nat := [1]

/-- `GLOBAL_SECTION = '__global__'` from `ffmpeg.py:182`. -/
def globalSection : Chars := "__global__".toList

/-- `COMMENT_PATTERN = ^[;#]` from `ffmpeg.py:184` used with `re.match`. -/
def isComment (l : Chars) : Bool :=
  match l with
  | [] => false
  | c :: _ => decide (c = ';') || decide (c = '#')

/-- Character class `[A-Z]` from `SECTION_PATTERN`. -/
def isUpperAZ (c : Char) : Bool := decide ('A' ≤ c ∧ c ≤ 'Z')

/-- Parse `[A-Z]*\]` returning the letters before the first `]`;
`none` when a non-uppercase, non-`]` character (or the end) is hit first. -/
def upperTail : Chars → Option Chars
  | [] => none
  | c :: rest =>
    if c = ']' then some []
    else if isUpperAZ c then
      match upperTail rest with
      | some name => some (c :: name)
      | none => none
    else none

/-- `SECTION_PATTERN = \[(?P\<section_name>[A-Z]+)\]` from `ffmpeg.py:185`,
used with `re.match`: anchored at the start of the line only, so trailing
characters after the closing bracket are ignored. -/
def sectionName (l : Chars) : Option Chars :=
  match l with
  | [] => none
  | c :: rest =>
    if c = '[' then
      match upperTail rest with
      | some name => if name = [] then none else some name
      | none => none
    else none

/-- Search of `MISSING_ESCAPE_PATTERN = (?\<!\\)(?P\<unescaped_character>[=;#])`
from `ffmpeg.py:188`: the first `=`, `;` or `#` whose immediately preceding
character is not a backslash (`prev` is the character before the current
position, `none` at the start of the string). -/
def findMissingEscape (prev : Option Char) : Chars → Option Char
  | [] => none
  | c :: rest =>
    if (c = '=' ∨ c = ';' ∨ c = '#') ∧ prev ≠ some '\\' then some c
    else findMissingEscape (some c) rest

/-- `ESCAPE_PATTERN.sub(__replace_escaping, ...)` from `ffmpeg.py:187,193-198`:
left-to-right scan replacing `\X` by `X` for `X` in `=;#\`, failing on any
other escaped character.  A backslash before a newline or at the end of the
string is not matched by `\\(.)` and is kept as is. -/
def unescapeChars : Chars → Except MErr Chars
  | [] => .ok []
  | c :: rest =>
    if c = '\\' then
      match rest with
      | [] => .ok ['\\']
      | c2 :: rest2 =>
        if c2 = '=' ∨ c2 = ';' ∨ c2 = '#' ∨ c2 = '\\' then
          match unescapeChars rest2 with
          | .ok r => .ok (c2 :: r)
          | .error e => .error e
        else if c2 = '\n' then
          match unescapeChars (c2 :: rest2) with
          | .ok r => .ok ('\\' :: r)
          | .error e => .error e
        else .error (.invalidEscape c2)
    else
      match unescapeChars rest with
      | .ok r => .ok (c :: r)
      | .error e => .error e

/-- `FFMetadataParser.__unescape` from `ffmpeg.py:200-206`: first search for a
special character lacking an escape, then substitute escape sequences. -/
def unescape (s : Chars) : Except MErr Chars :=
  match findMissingEscape none s with
  | some c => .error (.missingEscape c)
  | none => unescapeChars s

/-- Detects an escape pair `\X` with `X` outside `=;#\` under the same
left-to-right pairing that `unescapeChars` performs. -/
def hasInvalidEscape : Chars → Bool
  | [] => false
  | c :: rest =>
    if c = '\\' then
      match rest with
      | [] => false
      | c2 :: rest2 =>
        if c2 = '=' ∨ c2 = ';' ∨ c2 = '#' ∨ c2 = '\\' then hasInvalidEscape rest2
        else if c2 = '\n' then hasInvalidEscape (c2 :: rest2)
        else true
    else hasInvalidEscape rest

/-- Find the last index where `KEY_VALUE_PATTERN`'s delimiter can sit:
`splitLast prev l` scans `l` (whose preceding character is `prev`) for the
rightmost `=` not immediately preceded by a backslash, returning the parts
before and after it.  Preferring the recursive result models the greedy
`(?P\<key>.+)` of the regex. -/
def splitLast (prev : Char) : Chars → Option (Chars × Chars)
  | [] => none
  | c :: rest =>
    match splitLast c rest with
    | some (k, v) => some (c :: k, v)
    | none => if c = '=' ∧ prev ≠ '\\' then some ([], rest) else none

/-- `KEY_VALUE_PATTERN = ^(?P\<key>.+)(?\<!\\)=(?P\<value>.*)$` from
`ffmpeg.py:186`: key is the (nonempty) text before the last `=` that is not
immediately preceded by a backslash, value is the rest. -/
def splitKeyValue : Chars → Option (Chars × Chars)
  | [] => none
  | c :: rest =>
    match splitLast c rest with
    | some (k, v) => some (c :: k, v)
    | none => none

/-- `line.endswith('\\')` from `ffmpeg.py:226`. -/
def endsWithBackslash : Chars → Bool
  | [] => false
  | [c] => decide (c = '\\')
  | _ :: c :: rest => endsWithBackslash (c :: rest)

/-- The loop body of `FFMetadataParser._read` (`ffmpeg.py:222-245`) on the
remaining lines, with the loop's state: current section name, current
section dict, the parser's `__metadata` mapping committed so far, the
`was_escaped_newline` flag and `previous_line` buffer.  Returns the final
`__metadata` state paired with the raised error, if any; on an error the
section in progress is not committed (the exception propagates before the
final assignment). -/
def readBody : List Chars → Chars → Sect → Meta → Bool → Chars → Meta × Option MErr
  | [], name, sect, meta, _, _ => (setKey meta name sect, none)
  | l :: rest, name, sect, meta, esc, prev =>
    let line := if esc then prev ++ l else l
    if endsWithBackslash line then
      readBody rest name sect meta true line.dropLast
    else if line.isEmpty || isComment line then
      readBody rest name sect meta false prev
    else
      match sectionName line with
      | some newName => readBody rest newName [] (setKey meta name sect) false prev
      | none =>
        match splitKeyValue line with
        | some kv =>
          match unescape kv.1 with
          | .error e => (meta, some e)
          | .ok k =>
            match unescape kv.2 with
            | .error e => (meta, some e)
            | .ok v => readBody rest name (setKey sect k v) meta false prev
        | none => (meta, some (.invalidSyntax line))

/-- `FFMetadataParser._read` from `ffmpeg.py:208-245`, acting on a parser
whose `__metadata` state is `m0`: the header checks run before
`__metadata.clear()`, so a header failure leaves the previous state
untouched, while after a valid header the state is rebuilt from scratch. -/
def readMeta (lines : List Chars) (m0 : Meta) : Meta × Option MErr :=
  match lines with
  | [] => (m0, some .stopIteration)
  | first :: rest =>
    match headerVersion first with
    | none => (m0, some (.badHeader first))
    | some v =>
      if v ∈ supportedVersions then
        readBody rest globalSection [] [] false []
      else (m0, some (.badVersion v))

/-- `FFMetadataParser.read_string` on a freshly constructed parser
(`ffmpeg.py:190-191,247-249`): decode the lines, returning the resulting
mapping or the raised error. -/
def readLines (lines : List Chars) : Except MErr Meta :=
  match readMeta lines [] with
  | (m, none) => .ok m
  | (_, some e) => .error e

/-- The continuation-joining of `_read` in isolation: the sequence of joined
lines that actually get classified.  A dangling fragment buffered when the
input ends contributes no line. -/
def joinAux : Bool → Chars → List Chars → List Chars
  | _, _, [] => []
  | esc, prev, l :: rest =>
    let line := if esc then prev ++ l else l
    if endsWithBackslash line then joinAux true line.dropLast rest
    else line :: joinAux false [] rest

/-- Continuation-joining of the body lines of an input. -/
def joinLines (lines : List Chars) : List Chars := joinAux false [] lines

/-- A joined line that `_read`'s loop consumes without raising: blank,
comment, a line beginning with `[UPPERCASE+]`, or a key=value line whose key
and value both unescape successfully. -/
def goodLine (l : Chars) : Bool :=
  l.isEmpty || isComment l || (sectionName l).isSome ||
    (match splitKeyValue l with
     | some kv => exceptOk (unescape kv.1) && exceptOk (unescape kv.2)
     | none => false)

/-- Modelled from the spec: a section line of the exact form `[UPPERCASE+]`
(spec §4.2 grammar), with nothing after the closing bracket. -/
def specSectionExact (l : Chars) : Bool :=
  match l with
  | [] => false
  | c :: rest =>
    decide (c = '[') && decide (rest.getLast? = some ']') &&
      !rest.dropLast.isEmpty && rest.dropLast.all isUpperAZ

/-- Modelled from the spec: a line that is one of the four forms the spec's
decode contract allows after continuation-joining — blank, comment, a
section line of the exact form `[UPPERCASE+]`, or a key=value line (with
correctly escaped key and value). -/
def specGoodLine (l : Chars) : Bool :=
  l.isEmpty || isComment l || specSectionExact l ||
    (match splitKeyValue l with
     | some kv => exceptOk (unescape kv.1) && exceptOk (unescape kv.2)
     | none => false)

/-- Modelled from the spec: the string contains an unescaped occurrence of
`=`, `;` or `#`, reading escapes as the spec's grammar does — scanning left
to right, `\X` is a unit, so the character after an escaped backslash `\\`
is itself unescaped. -/
def specHasUnescapedSpecial : Chars → Bool
  | [] => false
  | c :: rest =>
    if c = '\\' then
      match rest with
      | [] => false
      | _ :: rest2 => specHasUnescapedSpecial rest2
    else if c = '=' ∨ c = ';' ∨ c = '#' then true
    else specHasUnescapedSpecial rest

/-- Characters that play no structural or escaping role in the metadata
format: not `=`, `;`, `#`, `\` or `[`. -/
def plainChar (c : Char) : Bool :=
  decide (c ≠ '=' ∧ c ≠ ';' ∧ c ≠ '#' ∧ c ≠ '\\' ∧ c ≠ '[')

/-- Element of a list at an index. -/
def nth {α : Type} : List α → Nat → Option α
  | [], _ => none
  | a :: _, 0 => some a
  | _ :: l, n + 1 => nth l n

/-- The `-metadata key=value` argument pairs that
`FFmpegMetadataProcessor.combine` appends, one pair per item of the
`ffmetadata` mapping, interpolating `'%s=%s' % item` (`ffmpeg.py:365-367`). -/
def metadataArgs : List (String × String) → List String
  | [] => []
  | item :: rest => "-metadata" :: (item.1 ++ "=" ++ item.2) :: metadataArgs rest

/-- The full ffmpeg command that `FFmpegMetadataProcessor.combine` builds
(`ffmpeg.py:363-369`), given the already-determined encoder name and the
temporary file name. -/
def combineCommand (encoderName tmpName : String)
    (ffmetadata : List (String × String)) : List String :=
  ["ffmpeg", "-loglevel", "error", "-i", "pipe:"] ++ metadataArgs ffmetadata ++
    ["-codec", "copy", "-y", "-f", encoderName, tmpName]

/-- The `__mime_type_to_ffmpeg_type` table of `FFmpegProcessor`
(`ffmpeg.py:56-63`), in the forward direction. -/
def mimeTypeToFFmpegType : List (String × String) :=
  [("audio/mpeg", "mp3"), ("audio/ogg", "ogg"), ("audio/wav", "wav"),
   ("video/mp4", "mp4"), ("video/webm", "webm"),
   ("video/x-yuv4mpegpipe", "yuv4mpegpipe")]

/-- Association-list lookup (Python `dict[key]` / `dict.get`). -/
def lookupStr (k : String) : List (String × String) → Option String
  | [] => none
  | (k2, v) :: rest => if k2 = k then some v else lookupStr k rest

/-- Python `mime_type.split('/')[0]`: the text before the first slash. -/
def mimePrimaryType (mt : String) : String :=
  String.mk (mt.toList.takeWhile (fun c => c ≠ '/'))

/-- `FFmpegProcessor.resize` (`ffmpeg.py:95-110`) up to the external ffmpeg
invocation: the validation steps in source order — dimension check raising
`ValueError`, MIME-type lookup raising `UnsupportedFormatError`, media-kind
check raising `OperatorError` — and, when all pass, the command list that
would be run. -/
def resizeCommand (mimeType : String) (width height : Int) (tmpName : String) :
    Except MErr (List String) :=
  if width < 1 ∨ height < 1 then
    .error (.valueError ("Invalid dimensions: " ++ toString width ++ "x" ++ toString height))
  else
    match lookupStr mimeType mimeTypeToFFmpegType with
    | none => .error (.unsupportedFormatError ("Unsupported asset type: " ++ mimeType))
    | some ffmpegType =>
      if mimePrimaryType mimeType = "image" ∨ mimePrimaryType mimeType = "video" then
        .ok ["ffmpeg", "-loglevel", "error", "-f", ffmpegType, "-i", "pipe:",
             "-filter:v", "scale=" ++ toString width ++ ":" ++ toString height,
             "-f", ffmpegType, "-y", tmpName]
      else .error (.operatorError "Cannot resize asset of type %s")

/-- Whether a result is an `OperatorError`. -/
def isOperatorError {α : Type} : Except MErr α → Bool
  | .error (.operatorError _) => true
  | _ => false

/-- Modelled from the spec (§3): an Asset is a value entity given by its
essence bytes and its metadata mapping; `madam/core.py` is not in the
source tree.  Two assets are equal iff essence and metadata are equal, and
the content key is a deterministic function of exactly that data, so asset
equality coincides with content-key equality. -/
structure Asset where
  essence : List Nat
  metadata : List (String × String)
deriving DecidableEq, Repr

/-- Tag set attached to a stored asset (spec §3, StoreEntry). -/
abbrev Tags := List String

/-- Modelled from the spec (§4.3, §6): the in-memory store's backing
structure, a mapping keyed by content key; `madam/core.py` is not in the
source tree.  Entries are kept in insertion order. -/
abbrev AStore := List (Asset × Tags)

/-- Modelled from the spec (§4.3): `contains(asset)` — true iff an entry
with that content key exists. -/
def storeContains (s : AStore) (a : Asset) : Bool :=
  s.any (fun e => decide (e.1 = a))

/-- Modelled from the spec (§4.3): `add(asset, tags)` — no-op when an entry
with the same content key exists, otherwise insert a new entry with the
given tags. -/
def storeAdd (s : AStore) (a : Asset) (tags : Tags) : AStore :=
  if storeContains s a then s else s ++ [(a, tags)]

/-- Modelled from the spec (§4.3): `remove(asset)` — delete the entry keyed
by the asset's content key, `NotFoundError` when absent. -/
def storeRemove (s : AStore) (a : Asset) : Except MErr AStore :=
  if storeContains s a then .ok (s.filter (fun e => !decide (e.1 = a)))
  else .error .notFoundError

/-- A mutation call on a store: `add` or `remove`. -/
inductive StoreOp where
  | add (a : Asset) (tags : Tags)
  | remove (a : Asset)

/-- The store state after a mutation call; a failing `remove` raises and
leaves the store unchanged. -/
def applyOp (s : AStore) : StoreOp → AStore
  | .add a tags => storeAdd s a tags
  | .remove a => match storeRemove s a with
    | .ok s2 => s2
    | .error _ => s

/-- Store states reachable from the empty store by `add`/`remove` calls. -/
inductive StoreReachable : AStore → Prop where
  | empty : StoreReachable []
  | step : ∀ (s : AStore) (op : StoreOp), StoreReachable s → StoreReachable (applyOp s op)

/-- The content keys of a store's entries. -/
def storeKeys (s : AStore) : List Asset := s.map Prod.fst

/-- Modelled from the spec (§4.3): iteration yields every stored asset at
the instant the iterator is created — the snapshot is a copy frozen at
creation. -/
def storeSnapshot (s : AStore) : List Asset := s.map Prod.fst

/-- A store together with the snapshot iterators handed out so far. -/
structure Session where
  store : AStore
  iters : List (List Asset)

/-- Run one mutation call in a session: only the store changes. -/
def sessionStep (sess : Session) (op : StoreOp) : Session :=
  { sess with store := applyOp sess.store op }

/-- Obtain an iterator from the store: the frozen snapshot is recorded. -/
def takeIter (sess : Session) : Session :=
  { sess with iters := storeSnapshot sess.store :: sess.iters }

/-- Run a sequence of mutation calls in a session. -/
def runOps (sess : Session) (ops : List StoreOp) : Session :=
  ops.foldl sessionStep sess

/-- The character (if any) immediately preceding the current scan position:
the last character of the text `u` already scanned when `u` is nonempty,
else the ambient previous character. -/
def lastOrPrev (u : Chars) (prev : Option Char) : Option Char :=
  match u.getLast? with
  | some a => some a
  | none => prev

lemma endsWithBackslash_ne_nil {l : Chars} (h : endsWithBackslash l = true) : l ≠ [] := by
  intro he
  subst he
  simp [endsWithBackslash] at h

lemma endsWithBackslash_append (p : Chars) {l : Chars} (h : l ≠ []) :
    endsWithBackslash (p ++ l) = endsWithBackslash l := by
  induction p with
  | nil => rfl
  | cons a p ih =>
      have hc : (a :: p) ++ l = a :: (p ++ l) := rfl
      rw [hc]
      cases hp : p ++ l with
      | nil => exact absurd (List.append_eq_nil.mp hp).2 h
      | cons b t =>
          rw [show endsWithBackslash (a :: b :: t) = endsWithBackslash (b :: t) from rfl,
            ← hp, ih]

lemma readBody_prev_irrel (body : List Chars) :
    ∀ (name : Chars) (sect : Sect) (meta : Meta) (p q : Chars),
    readBody body name sect meta false p = readBody body name sect meta false q := by
  induction body with
  | nil => intros; rfl
  | cons l rest ih =>
      intro name sect meta p q
      cases hb : endsWithBackslash l with
      | true => simp [readBody, hb]
      | false =>
          cases hc : (l.isEmpty || isComment l) with
          | true =>
              simp only [readBody, Bool.false_eq_true, if_false, hb, hc, if_true]
              exact ih name sect meta p q
          | false =>
              cases hs : sectionName l with
              | some newName =>
                  simp only [readBody, Bool.false_eq_true, if_false, hb, hc, hs]
                  exact ih newName [] (setKey meta name sect) p q
              | none =>
                  cases hkv : splitKeyValue l with
                  | some kv =>
                      cases hk : unescape kv.1 with
                      | error e =>
                          simp only [readBody, Bool.false_eq_true, if_false, hb, hc, hs, hkv, hk]
                      | ok k =>
                          cases hv : unescape kv.2 with
                          | error e =>
                              simp only [readBody, Bool.false_eq_true, if_false, hb, hc, hs,
                                hkv, hk, hv]
                          | ok v =>
                              simp only [readBody, Bool.false_eq_true, if_false, hb, hc, hs,
                                hkv, hk, hv]
                              exact ih name (setKey sect k v) meta p q
                  | none =>
                      simp only [readBody, Bool.false_eq_true, if_false, hb, hc, hs, hkv]

lemma joinAux_prev_irrel (rest : List Chars) (p q : Chars) :
    joinAux false p rest = joinAux false q rest := by
  cases rest with
  | nil => rfl
  | cons l t => rfl

lemma readBody_snd_none_iff (body : List Chars) :
    ∀ (name : Chars) (sect : Sect) (meta : Meta) (esc : Bool) (prev : Chars),
    (readBody body name sect meta esc prev).2 = none ↔
      ∀ x ∈ joinAux esc prev body, goodLine x = true := by
  induction body with
  | nil => intros; simp [readBody, joinAux]
  | cons l rest ih =>
      intro name sect meta esc prev
      simp only [readBody, joinAux]
      generalize (if esc then prev ++ l else l) = line
      cases hb : endsWithBackslash line with
      | true =>
          simp only [hb, if_true]
          exact ih name sect meta true line.dropLast
      | false =>
          simp only [hb, Bool.false_eq_true, if_false, List.forall_mem_cons]
          cases hc : (line.isEmpty || isComment line) with
          | true =>
              have hg : goodLine line = true := by
                rcases Bool.or_eq_true_iff.mp hc with h1 | h1 <;> simp [goodLine, h1]
              simp only [hc, if_true]
              rw [ih name sect meta false prev, joinAux_prev_irrel rest prev []]
              simp [hg]
          | false =>
              simp only [hc, Bool.false_eq_true, if_false]
              have hc1 : line.isEmpty = false := (Bool.or_eq_false_iff.mp hc).1
              have hc2 : isComment line = false := (Bool.or_eq_false_iff.mp hc).2
              cases hs : sectionName line with
              | some newName =>
                  simp only []
                  have hg : goodLine line = true := by simp [goodLine, hs]
                  rw [ih newName [] (setKey meta name sect) false prev,
                    joinAux_prev_irrel rest prev []]
                  simp [hg]
              | none =>
                  simp only []
                  cases hkv : splitKeyValue line with
                  | some kv =>
                      simp only []
                      cases hk : unescape kv.1 with
                      | error e =>
                          have hg : goodLine line = false := by
                            simp [goodLine, hc1, hc2, hs, hkv, hk, exceptOk]
                          simp [hg]
                      | ok k =>
                          simp only []
                          cases hv : unescape kv.2 with
                          | error e =>
                              have hg : goodLine line = false := by
                                simp [goodLine, hc1, hc2, hs, hkv, hk, hv, exceptOk]
                              simp [hg]
                          | ok v =>
                              simp only []
                              have hg : goodLine line = true := by
                                simp [goodLine, hkv, hk, hv, exceptOk]
                              rw [ih name (setKey sect k v) meta false prev,
                                joinAux_prev_irrel rest prev []]
                              simp [hg]
                  | none =>
                      have hg : goodLine line = false := by
                        simp [goodLine, hc1, hc2, hs, hkv]
                      simp [hg]

lemma readLines_ok_iff_none (lines : List Chars) :
    exceptOk (readLines lines) = true ↔ (readMeta lines []).2 = none := by
  unfold readLines
  cases h : readMeta lines [] with
  | mk m o => cases o <;> simp [exceptOk]

lemma readBody_dangling (ls : List Chars) :
    ∀ (l : Chars) (name : Chars) (sect : Sect) (meta : Meta) (esc : Bool) (prev : Chars),
    endsWithBackslash l = true →
    readBody (ls ++ [l]) name sect meta esc prev = readBody ls name sect meta esc prev := by
  induction ls with
  | nil =>
      intro l name sect meta esc prev hl
      have hne := endsWithBackslash_ne_nil hl
      have h1 : endsWithBackslash (if esc then prev ++ l else l) = true := by
        cases esc
        · simpa using hl
        · simpa [endsWithBackslash_append prev hne] using hl
      simp [readBody, h1]
  | cons x t ih =>
      intro l name sect meta esc prev hl
      simp only [List.cons_append, readBody]
      generalize (if esc then prev ++ x else x) = line
      cases hb : endsWithBackslash line with
      | true =>
          simp only [hb, if_true]
          exact ih l name sect meta true line.dropLast hl
      | false =>
          simp only [hb, Bool.false_eq_true, if_false]
          cases hc : (line.isEmpty || isComment line) with
          | true =>
              simp only [hc, if_true]
              exact ih l name sect meta false prev hl
          | false =>
              simp only [hc, Bool.false_eq_true, if_false]
              cases hs : sectionName line with
              | some newName =>
                  simp only []
                  exact ih l newName [] (setKey meta name sect) false prev hl
              | none =>
                  simp only []
                  cases hkv : splitKeyValue line with
                  | some kv =>
                      simp only []
                      cases hk : unescape kv.1 with
                      | error e => rfl
                      | ok k =>
                          simp only []
                          cases hv : unescape kv.2 with
                          | error e => rfl
                          | ok v =>
                              simp only []
                              exact ih l name (setKey sect k v) meta false prev hl
                  | none => rfl

lemma readBody_step_line (x y : Chars) (rest : List Chars)
    (name : Chars) (sect : Sect) (meta : Meta) (esc : Bool) (prev : Chars)
    (esc2 : Bool) (prev2 : Chars)
    (h : (if esc then prev ++ x else x) = (if esc2 then prev2 ++ y else y)) :
    readBody (x :: rest) name sect meta esc prev =
      readBody (y :: rest) name sect meta esc2 prev2 := by
  simp only [readBody]
  rw [h]
  generalize (if esc2 then prev2 ++ y else y) = line
  cases hb : endsWithBackslash line with
  | true => simp only [hb, if_true]
  | false =>
      simp only [hb, Bool.false_eq_true, if_false]
      cases hc : (line.isEmpty || isComment line) with
      | true =>
          simp only [hc, if_true]
          exact readBody_prev_irrel rest name sect meta prev prev2
      | false =>
          simp only [hc, Bool.false_eq_true, if_false]
          cases hs : sectionName line with
          | some newName =>
              simp only []
              exact readBody_prev_irrel rest newName [] (setKey meta name sect) prev prev2
          | none =>
              simp only []
              cases hkv : splitKeyValue line with
              | some kv =>
                  simp only []
                  cases hk : unescape kv.1 with
                  | error e => rfl
                  | ok k =>
                      simp only []
                      cases hv : unescape kv.2 with
                      | error e => rfl
                      | ok v =>
                          simp only []
                          exact readBody_prev_irrel rest name (setKey sect k v) meta prev prev2
              | none => rfl

lemma readBody_joins (l1 l2 : Chars) (rest : List Chars)
    (name : Chars) (sect : Sect) (meta : Meta) (esc : Bool) (prev : Chars)
    (hl : endsWithBackslash l1 = true) :
    readBody (l1 :: l2 :: rest) name sect meta esc prev =
      readBody ((l1.dropLast ++ l2) :: rest) name sect meta esc prev := by
  have hne := endsWithBackslash_ne_nil hl
  have h1 : endsWithBackslash (if esc then prev ++ l1 else l1) = true := by
    cases esc
    · simpa using hl
    · simpa [endsWithBackslash_append prev hne] using hl
  have hstep : readBody (l1 :: l2 :: rest) name sect meta esc prev
      = readBody (l2 :: rest) name sect meta true (if esc then prev ++ l1 else l1).dropLast := by
    simp [readBody, h1]
  rw [hstep]
  apply readBody_step_line
  cases esc
  · simp
  · simp [List.dropLast_append_of_ne_nil _ hne, List.append_assoc]

lemma lastOrPrev_cons (a : Char) (u : Chars) (prev : Option Char) :
    lastOrPrev (a :: u) prev = lastOrPrev u (some a) := by
  cases u with
  | nil => rfl
  | cons b u2 =>
      cases h : (b :: u2).getLast? with
      | none => simp [List.getLast?_eq_none_iff] at h
      | some x => simp [lastOrPrev, List.getLast?_cons_cons, h]

lemma lastOrPrev_none (u : Chars) : lastOrPrev u none = u.getLast? := by
  cases h : u.getLast? <;> simp [lastOrPrev, h]

lemma hasInvalidEscape_cons_ne (c : Char) (rest : Chars) (hc : ¬ c = '\\') :
    hasInvalidEscape (c :: rest) = hasInvalidEscape rest := by
  rw [hasInvalidEscape.eq_def]
  simp only []
  rw [if_neg hc]

lemma unescapeChars_cons_ne (c : Char) (rest : Chars) (hc : ¬ c = '\\') :
    unescapeChars (c :: rest) =
      match unescapeChars rest with
      | .ok r => .ok (c :: r)
      | .error e => .error e := by
  rw [unescapeChars.eq_def]
  simp only []
  rw [if_neg hc]

lemma findMissingEscape_append_special (u : Chars) :
    ∀ (prev : Option Char) (c : Char) (w : Chars),
    (c = '=' ∨ c = ';' ∨ c = '#') → lastOrPrev u prev ≠ some '\\' →
    (findMissingEscape prev (u ++ c :: w)).isSome = true := by
  induction u with
  | nil =>
      intro prev c w hce hprev
      have hp : prev ≠ some '\\' := by simpa [lastOrPrev] using hprev
      simp only [List.nil_append, findMissingEscape]
      rw [if_pos ⟨hce, hp⟩]
      rfl
  | cons a u ih =>
      intro prev c w hce hprev
      rw [lastOrPrev_cons] at hprev
      simp only [List.cons_append, findMissingEscape]
      by_cases ha : (a = '=' ∨ a = ';' ∨ a = '#') ∧ prev ≠ some '\\'
      · rw [if_pos ha]; rfl
      · rw [if_neg ha]
        exact ih (some a) c w hce hprev

lemma unescape_missing_special (u : Chars) (c : Char) (w : Chars)
    (hce : c = '=' ∨ c = ';' ∨ c = '#') (hlast : u.getLast? ≠ some '\\') :
    ∃ c2, unescape (u ++ c :: w) = .error (.missingEscape c2) := by
  have h := findMissingEscape_append_special u none c w hce
    (by rw [lastOrPrev_none]; exact hlast)
  cases h2 : findMissingEscape none (u ++ c :: w) with
  | none => rw [h2] at h; simp at h
  | some c2 => exact ⟨c2, by simp [unescape, h2]⟩

lemma unescapeChars_invalid_err (s : Chars) (h : hasInvalidEscape s = true) :
    exceptErr (unescapeChars s) = true := by
  induction s using hasInvalidEscape.induct with
  | case1 => simp [hasInvalidEscape] at h
  | case2 => simp [hasInvalidEscape] at h
  | case3 c2 rest2 hc2 ih =>
      have h2 : hasInvalidEscape rest2 = true := by
        simpa [hasInvalidEscape, hc2] using h
      have herr := ih h2
      cases hr : unescapeChars rest2 with
      | ok r => rw [hr] at herr; simp [exceptErr] at herr
      | error e => simp [unescapeChars, hc2, hr, exceptErr]
  | case4 rest2 hn ih =>
      have h2 : hasInvalidEscape ('\n' :: rest2) = true := by
        simpa [hasInvalidEscape, hn] using h
      have herr := ih h2
      cases hr : unescapeChars ('\n' :: rest2) with
      | ok r => rw [hr] at herr; simp [exceptErr] at herr
      | error e => simp [unescapeChars, hn, hr, exceptErr]
  | case5 c2 rest2 hc2 hn =>
      simp [unescapeChars, hc2, hn, exceptErr]
  | case6 c2 rest2 hc2 ih =>
      have h2 : hasInvalidEscape rest2 = true := by
        rw [hasInvalidEscape_cons_ne c2 rest2 hc2] at h
        exact h
      have herr := ih h2
      cases hr : unescapeChars rest2 with
      | ok r => rw [hr] at herr; simp [exceptErr] at herr
      | error e =>
          rw [unescapeChars_cons_ne c2 rest2 hc2, hr]
          simp [exceptErr]

lemma unescape_invalid_err (s : Chars) (h : hasInvalidEscape s = true) :
    exceptErr (unescape s) = true := by
  unfold unescape
  cases hm : findMissingEscape none s with
  | some c => simp [exceptErr]
  | none => exact unescapeChars_invalid_err s h

lemma plainChar_spec {c : Char} (h : plainChar c = true) :
    c ≠ '=' ∧ c ≠ ';' ∧ c ≠ '#' ∧ c ≠ '\\' ∧ c ≠ '[' :=
  of_decide_eq_true h

lemma findMissingEscape_plain (s : Chars) (hs : ∀ c ∈ s, plainChar c = true) :
    ∀ prev, findMissingEscape prev s = none := by
  induction s with
  | nil => intro prev; rfl
  | cons c rest ih =>
      intro prev
      have hc := plainChar_spec (hs c (List.mem_cons_self c rest))
      have h1 : ¬((c = '=' ∨ c = ';' ∨ c = '#') ∧ prev ≠ some '\\') := by
        rintro ⟨h2 | h2 | h2, _⟩
        exacts [hc.1 h2, hc.2.1 h2, hc.2.2.1 h2]
      simp only [findMissingEscape]
      rw [if_neg h1]
      exact ih (fun x hx => hs x (List.mem_cons_of_mem c hx)) (some c)

lemma unescapeChars_plain (s : Chars) (hs : ∀ c ∈ s, plainChar c = true) :
    unescapeChars s = .ok s := by
  induction s with
  | nil => rfl
  | cons c rest ih =>
      have hc := plainChar_spec (hs c (List.mem_cons_self c rest))
      have hrec := ih (fun x hx => hs x (List.mem_cons_of_mem c hx))
      rw [unescapeChars_cons_ne c rest hc.2.2.2.1, hrec]

lemma unescape_plain (s : Chars) (hs : ∀ c ∈ s, plainChar c = true) :
    unescape s = .ok s := by
  unfold unescape
  rw [findMissingEscape_plain s hs none]
  exact unescapeChars_plain s hs

lemma splitLast_no_delim (s : Chars) (hs : ∀ c ∈ s, c ≠ '=') :
    ∀ prev, splitLast prev s = none := by
  induction s with
  | nil => intro prev; rfl
  | cons c rest ih =>
      intro prev
      simp only [splitLast]
      rw [ih (fun x hx => hs x (List.mem_cons_of_mem c hx)) c]
      simp only []
      rw [if_neg]
      rintro ⟨h1, _⟩
      exact hs c (List.mem_cons_self c rest) h1

lemma splitLast_plain (k : Chars) :
    ∀ (prev : Char) (v : Chars), prev ≠ '\\' →
    (∀ c ∈ k, plainChar c = true) → (∀ c ∈ v, c ≠ '=') →
    splitLast prev (k ++ '=' :: v) = some (k, v) := by
  induction k with
  | nil =>
      intro prev v hprev hk hv
      simp only [List.nil_append, splitLast]
      rw [splitLast_no_delim v hv '=']
      simp [hprev]
  | cons a k2 ih =>
      intro prev v hprev hk hv
      have ha := plainChar_spec (hk a (List.mem_cons_self a k2))
      simp only [List.cons_append, splitLast, List.append_eq]
      rw [ih a v ha.2.2.2.1 (fun x hx => hk x (List.mem_cons_of_mem a hx)) hv]

lemma splitKeyValue_plain (a : Char) (k2 v : Chars)
    (hk : ∀ c ∈ a :: k2, plainChar c = true) (hv : ∀ c ∈ v, c ≠ '=') :
    splitKeyValue ((a :: k2) ++ '=' :: v) = some (a :: k2, v) := by
  have ha := plainChar_spec (hk a (List.mem_cons_self a k2))
  simp only [List.cons_append, splitKeyValue, List.append_eq]
  rw [splitLast_plain k2 a v ha.2.2.2.1 (fun x hx => hk x (List.mem_cons_of_mem a hx)) hv]

lemma endsWithBackslash_getLast (l : Chars) :
    endsWithBackslash l = true ↔ l.getLast? = some '\\' := by
  induction l with
  | nil => simp [endsWithBackslash]
  | cons a t ih =>
      cases t with
      | nil => simp [endsWithBackslash]
      | cons b t2 =>
          rw [show endsWithBackslash (a :: b :: t2) = endsWithBackslash (b :: t2) from rfl,
            List.getLast?_cons_cons]
          exact ih

lemma upperTail_append (nm : Chars) (junk : Chars) (h : ∀ c ∈ nm, isUpperAZ c = true) :
    upperTail (nm ++ ']' :: junk) = some nm := by
  induction nm with
  | nil => simp [upperTail]
  | cons a t ih =>
      have ha := h a (List.mem_cons_self a t)
      have ha2 : ¬ a = ']' := by
        intro he
        rw [he] at ha
        simp [isUpperAZ] at ha
      simp only [List.cons_append, upperTail, List.append_eq]
      rw [if_neg ha2, if_pos ha, ih (fun x hx => h x (List.mem_cons_of_mem a hx))]

lemma sectionName_eval (nm : Chars) (junk : Chars) (h0 : nm ≠ [])
    (h : ∀ c ∈ nm, isUpperAZ c = true) :
    sectionName ('[' :: (nm ++ ']' :: junk)) = some nm := by
  simp only [sectionName]
  rw [if_pos trivial, upperTail_append nm junk h]
  simp [h0]

lemma upper_ne_global (nm : Chars) (h0 : nm ≠ []) (h : ∀ c ∈ nm, isUpperAZ c = true) :
    nm ≠ globalSection := by
  intro he
  cases nm with
  | nil => exact h0 rfl
  | cons a t =>
      have ha := h a (List.mem_cons_self a t)
      have he2 : a = '_' := by
        have := congrArg (fun l => l.head?) he
        simpa [globalSection] using this
      rw [he2] at ha
      simp [isUpperAZ] at ha

lemma kvLine_step (a : Char) (k2 v : Chars) (rest : List Chars)
    (name : Chars) (sect : Sect) (meta : Meta) (prev : Chars)
    (hk : ∀ c ∈ a :: k2, plainChar c = true) (hv : ∀ c ∈ v, plainChar c = true) :
    readBody (((a :: k2) ++ '=' :: v) :: rest) name sect meta false prev =
      readBody rest name (setKey sect (a :: k2) v) meta false prev := by
  have ha := plainChar_spec (hk a (List.mem_cons_self a k2))
  have hb : endsWithBackslash ((a :: k2) ++ '=' :: v) = false := by
    rw [Bool.eq_false_iff]
    intro hbb
    have hlast := (endsWithBackslash_getLast _).mp hbb
    rw [List.getLast?_append_cons] at hlast
    cases v with
    | nil => simp at hlast
    | cons c2 v2 =>
        rw [List.getLast?_cons_cons] at hlast
        have hmem := List.mem_of_getLast?_eq_some hlast
        exact (plainChar_spec (hv '\\' hmem)).2.2.2.1 rfl
  have hblank : ((a :: k2) ++ '=' :: v).isEmpty = false := by simp
  have hcom : isComment ((a :: k2) ++ '=' :: v) = false := by
    simp [isComment, ha.2.1, ha.2.2.1]
  have hsec : sectionName ((a :: k2) ++ '=' :: v) = none := by
    simp only [List.cons_append, sectionName]
    rw [if_neg ha.2.2.2.2]
  have hkv := splitKeyValue_plain a k2 v hk (fun x hx => (plainChar_spec (hv x hx)).1)
  have hunk := unescape_plain (a :: k2) hk
  have hunv := unescape_plain v hv
  simp only [readBody, Bool.false_eq_true, if_false, hb, hblank, hcom, hsec, hkv,
    hunk, hunv, Bool.or_self]

lemma sectionLine_step (nm : Chars) (rest : List Chars)
    (name : Chars) (sect : Sect) (meta : Meta) (prev : Chars)
    (h0 : nm ≠ []) (h : ∀ c ∈ nm, isUpperAZ c = true) :
    readBody (('[' :: (nm ++ [']'])) :: rest) name sect meta false prev =
      readBody rest nm [] (setKey meta name sect) false prev := by
  have hb : endsWithBackslash ('[' :: (nm ++ [']'])) = false := by
    rw [Bool.eq_false_iff]
    intro hbb
    have hlast := (endsWithBackslash_getLast _).mp hbb
    rw [show ('[' :: (nm ++ [']'])) = ('[' :: nm) ++ [']'] from by simp,
      List.getLast?_concat] at hlast
    simp at hlast
  have hblank : ('[' :: (nm ++ [']'])).isEmpty = false := by simp
  have hcom : isComment ('[' :: (nm ++ [']'])) = false := by simp [isComment]
  have hsec := sectionName_eval nm [] h0 h
  simp only [readBody, Bool.false_eq_true, if_false, hb, hblank, hcom, hsec, Bool.or_self]

lemma storeContains_false_not_mem {s : AStore} {a : Asset}
    (h : storeContains s a = false) : a ∉ storeKeys s := by
  intro hmem
  rw [storeKeys, List.mem_map] at hmem
  obtain ⟨e, he, hfst⟩ := hmem
  have h2 : storeContains s a = true := by
    rw [storeContains, List.any_eq_true]
    exact ⟨e, he, by simp [hfst]⟩
  rw [h2] at h
  cases h

lemma storeKeys_nodup_reachable (s : AStore) (h : StoreReachable s) :
    (storeKeys s).Nodup := by
  induction h with
  | empty => simp [storeKeys]
  | step s op hs ih =>
      cases op with
      | add a tags =>
          cases hc : storeContains s a with
          | true => simpa [applyOp, storeAdd, hc] using ih
          | false =>
              have hnm := storeContains_false_not_mem hc
              simp only [applyOp, storeAdd, hc, Bool.false_eq_true, if_false, storeKeys,
                List.map_append]
              rw [List.nodup_append]
              refine ⟨ih, by simp, ?_⟩
              intro x hx hx2
              simp only [List.map_cons, List.map_nil, List.mem_singleton] at hx2
              subst hx2
              exact hnm hx
      | remove a =>
          simp only [applyOp]
          cases hr : storeRemove s a with
          | ok s2 =>
              simp only []
              rw [storeRemove] at hr
              by_cases hc : storeContains s a = true
              · rw [if_pos hc] at hr
                have hs2 : s.filter (fun e => !decide (e.1 = a)) = s2 := by
                  simpa using hr
                subst hs2
                exact List.Nodup.sublist (List.Sublist.map _ (List.filter_sublist s)) ih
              · rw [if_neg hc] at hr
                simp at hr
          | error e => simpa using ih

lemma storeContains_add (s : AStore) (a : Asset) (t : Tags) :
    storeContains (storeAdd s a t) a = true := by
  cases hc : storeContains s a with
  | true => simp [storeAdd, hc]
  | false =>
      simp only [storeAdd, hc, Bool.false_eq_true, if_false]
      simp [storeContains, List.any_append]

lemma runOps_iters (ops : List StoreOp) :
    ∀ (sess : Session), (runOps sess ops).iters = sess.iters := by
  induction ops with
  | nil => intro sess; rfl
  | cons op rest ih =>
      intro sess
      simpa [runOps, sessionStep] using ih (sessionStep sess op)

lemma metadataArgs_nth (md : List (String × String)) :
    ∀ (i : Nat) (tail : List String), i < md.length →
    nth (metadataArgs md ++ tail) (2 * i) = some "-metadata" ∧
    ∃ k v, nth md i = some (k, v) ∧
      nth (metadataArgs md ++ tail) (2 * i + 1) = some (k ++ "=" ++ v) := by
  induction md with
  | nil => intro i tail h; simp at h
  | cons item md ih =>
      intro i tail h
      cases i with
      | zero =>
          refine ⟨rfl, item.1, item.2, ?_, ?_⟩
          · cases item; rfl
          · rfl
      | succ j =>
          have hj : j < md.length := by simpa using h
          obtain ⟨h1, k, v, h2, h3⟩ := ih j tail hj
          refine ⟨?_, k, v, ?_, ?_⟩
          · rw [show 2 * (j + 1) = 2 * j + 1 + 1 from by ring]
            exact h1
          · exact h2
          · rw [show 2 * (j + 1) + 1 = (2 * j + 1) + 1 + 1 from by ring]
            exact h3

/-- C1 counterexample: the claim fails on the code.  In the line `k=a\\=b`
the raw value text `a\\=b` contains an unescaped `=` in the spec's
token-level sense — the backslash before the `=` is itself escaped, being
the second half of the pair `\\` — yet decoding succeeds (yielding `a\=b`),
because the missing-escape check only inspects the single preceding
character. -/
theorem c1_counterexample :
    specHasUnescapedSpecial "a\\\\=b".toList = true ∧
    readLines [";FFMETADATA1".toList, "k=a\\\\=b".toList] =
      .ok [(globalSection, [("k".toList, "a\\=b".toList)])] :=
  ⟨rfl, rfl⟩

/-- C1 amended: the codec is strict in the one-character-lookbehind sense.
Unescaping fails with a missing-escape error whenever `=`, `;` or `#` occurs
not immediately preceded by a backslash character, and fails whenever the
left-to-right escape pairing meets `\X` with `X` outside `=;#\`; decoding
the line `key=a=b` fails with a missing-escape syntax error, while
`key=a\=b` succeeds and yields value `a=b` for key `key`. -/
theorem c1_amended :
    (∀ (u w : Chars) (c : Char), (c = '=' ∨ c = ';' ∨ c = '#') →
      u.getLast? ≠ some '\\' →
      ∃ c2, unescape (u ++ c :: w) = .error (.missingEscape c2)) ∧
    (∀ s : Chars, hasInvalidEscape s = true → exceptErr (unescape s) = true) ∧
    readLines [";FFMETADATA1".toList, "key=a=b".toList] = .error (.missingEscape '=') ∧
    readLines [";FFMETADATA1".toList, "key=a\\=b".toList] =
      .ok [(globalSection, [("key".toList, "a=b".toList)])] :=
  ⟨fun u w c hce hlast => unescape_missing_special u c w hce hlast,
   fun s h => unescape_invalid_err s h, rfl, rfl⟩

/-- Witness for `c1_amended`: the unescaped `=` in `a=` is rejected, and the
invalid escape `\q` is rejected. -/
theorem c1_amended_witness :
    (∃ c2, unescape (['a'] ++ '=' :: []) = .error (.missingEscape c2)) ∧
    exceptErr (unescape ('\\' :: 'q' :: [])) = true :=
  ⟨c1_amended.1 ['a'] [] '=' (Or.inl rfl) (by decide),
   c1_amended.2.1 ('\\' :: 'q' :: []) (by decide)⟩

/-- C2 counterexample: the claim fails on the code.  The line `[ABC]junk` is
none of the spec's four exact forms (in particular it is not a section line
of the exact form `[UPPERCASE+]`), so by the claim decoding must fail; the
code accepts it, because the section pattern is only anchored at the start
of the line, and decoding succeeds with section `ABC`. -/
theorem c2_counterexample :
    specGoodLine "[ABC]junk".toList = false ∧
    headerVersion ";FFMETADATA1".toList = some 1 ∧
    readLines [";FFMETADATA1".toList, "[ABC]junk".toList] =
      .ok [(globalSection, []), ("ABC".toList, [])] :=
  ⟨rfl, rfl, rfl⟩

/-- C2 amended: decoding succeeds iff the input is nonempty, its first line
is a valid `;FFMETADATA<digits>` header with version in the supported set,
and every line obtained by continuation-joining of the remaining lines
(dangling fragments dropped) is a comment, blank, a line beginning with
`[UPPERCASE+]` (trailing text ignored), or a key=value line whose key and
value unescape successfully; decoding fails in every other case. -/
theorem c2_amended (lines : List Chars) :
    exceptOk (readLines lines) = true ↔
      ∃ first rest, lines = first :: rest ∧
        (∃ v, headerVersion first = some v ∧ v ∈ supportedVersions) ∧
        ∀ l ∈ joinLines rest, goodLine l = true := by
  cases lines with
  | nil =>
      constructor
      · intro h
        simp [readLines, readMeta, exceptOk] at h
      · rintro ⟨first, rest, h, _⟩
        cases h
  | cons first rest =>
      rw [readLines_ok_iff_none]
      simp only [readMeta]
      cases hh : headerVersion first with
      | none =>
          simp only []
          constructor
          · intro h
            exact Option.noConfusion h
          · rintro ⟨f2, r2, he, ⟨v, hv, _⟩, _⟩
            injection he with he1 he2
            subst he1
            rw [hh] at hv
            exact Option.noConfusion hv
      | some v =>
          simp only []
          by_cases hv : v ∈ supportedVersions
          · rw [if_pos hv, readBody_snd_none_iff]
            constructor
            · intro h
              exact ⟨first, rest, rfl, ⟨v, hh, hv⟩, h⟩
            · rintro ⟨f2, r2, he, _, hall⟩
              injection he with he1 he2
              subst he2
              exact hall
          · rw [if_neg hv]
            constructor
            · intro h
              exact Option.noConfusion h
            · rintro ⟨f2, r2, he, ⟨v2, hv2, hv2s⟩, _⟩
              injection he with he1 he2
              subst he1
              rw [hh] at hv2
              injection hv2 with he3
              subst he3
              exact absurd hv2s hv

/-- Witness for `c2_amended`: a well-formed two-line input decodes
successfully. -/
theorem c2_amended_witness :
    exceptOk (readLines [";FFMETADATA1".toList, "k=v".toList]) = true :=
  (c2_amended [";FFMETADATA1".toList, "k=v".toList]).mpr
    ⟨";FFMETADATA1".toList, ["k=v".toList], rfl, ⟨1, rfl, by decide⟩, by decide⟩

/-- C3 counterexample: the claim fails on the code.  The line `k=a\\` ends
in an escaped backslash (`\\`), so by the claim it must be parsed as-is and
yield key `k` with value `a\`; the code's continuation test only looks at
the final character, treats the line as a continuation, and — the input
ending there — discards it: the decoded mapping has an empty global
section. -/
theorem c3_counterexample :
    endsWithBackslash "k=a\\\\".toList = true ∧
    readLines [";FFMETADATA1".toList, "k=a\\\\".toList] = .ok [(globalSection, [])] ∧
    (Except.ok [(globalSection, ([] : Sect))] : Except MErr Meta) ≠
      .ok [(globalSection, [("k".toList, "a\\".toList)])] := by
  refine ⟨rfl, rfl, fun h => ?_⟩
  simp at h

/-- C3 amended: during decoding, a line whose final character is a backslash
— whether or not that backslash is itself escaped — is joined with the
following line, with the trailing backslash removed and no separator
inserted, before the joined line is classified. -/
theorem c3_amended (first l1 l2 : Chars) (rest : List Chars)
    (h : endsWithBackslash l1 = true) :
    readLines (first :: l1 :: l2 :: rest) =
      readLines (first :: (l1.dropLast ++ l2) :: rest) := by
  unfold readLines readMeta
  simp only []
  cases hh : headerVersion first with
  | none => rfl
  | some v =>
      simp only []
      by_cases hv : v ∈ supportedVersions
      · rw [if_pos hv, if_pos hv,
          readBody_joins l1 l2 rest globalSection [] [] false [] h]
      · rw [if_neg hv, if_neg hv]

/-- Witness for `c3_amended`: `a\` followed by `b=c` is decoded exactly like
the joined line `ab=c`. -/
theorem c3_amended_witness :
    readLines [";FFMETADATA1".toList, "a\\".toList, "b=c".toList] =
      readLines [";FFMETADATA1".toList, ("a\\".toList).dropLast ++ "b=c".toList] :=
  c3_amended ";FFMETADATA1".toList "a\\".toList "b=c".toList [] (by decide)

/-- C4 counterexample: the claim fails on the code.  Decoding
`;FFMETADATA1 / k=1 / [AB] / !!!` raises a syntax error on `!!!`, yet the
parser's mapping state afterwards contains the global section with the key
`k` extracted from the failing input — sections are committed into
`__metadata` at each section boundary before the error. -/
theorem c4_counterexample :
    readMeta [";FFMETADATA1".toList, "k=1".toList, "[AB]".toList, "!!!".toList] [] =
      ([(globalSection, [("k".toList, "1".toList)])],
        some (.invalidSyntax "!!!".toList)) :=
  rfl

/-- C4 amended: no partial mapping is returned through the decode result
(every failing decode yields an error, never a mapping), and a failed
header or version check — or empty input — leaves the parser's previous
mapping state untouched (the checks run before `clear()`); but decoding is
not atomic on internal state: after a valid header the state is cleared and
any section committed at a section boundary before the failing line is
retained. -/
theorem c4_amended :
    (∀ (first : Chars) (rest : List Chars) (m0 : Meta), headerVersion first = none →
      readMeta (first :: rest) m0 = (m0, some (.badHeader first))) ∧
    (∀ (first : Chars) (rest : List Chars) (m0 : Meta) (v : Nat),
      headerVersion first = some v → v ∉ supportedVersions →
      readMeta (first :: rest) m0 = (m0, some (.badVersion v))) ∧
    (∀ m0 : Meta, readMeta [] m0 = (m0, some .stopIteration)) ∧
    (∀ (lines : List Chars) (e : MErr), (readMeta lines []).2 = some e →
      readLines lines = .error e) ∧
    readMeta [";FFMETADATA1".toList, "k=1".toList, "[AB]".toList, "!!!".toList] [] =
      ([(globalSection, [("k".toList, "1".toList)])],
        some (.invalidSyntax "!!!".toList)) := by
  refine ⟨?_, ?_, fun m0 => rfl, ?_, rfl⟩
  · intro first rest m0 hh
    simp [readMeta, hh]
  · intro first rest m0 v hh hv
    simp only [readMeta, hh]
    rw [if_neg hv]
  · intro lines e h
    unfold readLines
    cases h2 : readMeta lines [] with
    | mk m o =>
        rw [h2] at h
        have h4 : o = some e := h
        rw [h4]

/-- Witness for `c4_amended`: an invalid header and an unsupported version
both leave pre-existing parser state in place, and the failing decode
returns the error, not a mapping. -/
theorem c4_amended_witness :
    readMeta ["garbage".toList] [(globalSection, [("old".toList, "1".toList)])] =
      ([(globalSection, [("old".toList, "1".toList)])],
        some (.badHeader "garbage".toList)) ∧
    readMeta [";FFMETADATA2".toList] [(globalSection, [("old".toList, "1".toList)])] =
      ([(globalSection, [("old".toList, "1".toList)])], some (.badVersion 2)) ∧
    readLines [";FFMETADATA2".toList] = .error (.badVersion 2) :=
  ⟨c4_amended.1 "garbage".toList [] [(globalSection, [("old".toList, "1".toList)])]
      (by decide),
   c4_amended.2.1 ";FFMETADATA2".toList [] [(globalSection, [("old".toList, "1".toList)])]
      2 (by decide) (by decide),
   c4_amended.2.2.2.1 [";FFMETADATA2".toList] (.badVersion 2) rfl⟩

/-- C5: the store's `add` is idempotent and structurally deduplicating —
adding an asset whose content key is present is a no-op (size and the
existing entry's tags unchanged, whatever tags the second call passes), a
repeated `add` of the same asset with any tag sets leaves the store exactly
as after the first call, and every store state reachable by `add`/`remove`
calls from the empty store has pairwise distinct content keys. -/
theorem c5_store_dedup :
    (∀ (s : AStore) (a : Asset) (t : Tags), storeContains s a = true →
      storeAdd s a t = s) ∧
    (∀ (s : AStore) (a : Asset) (t1 t2 : Tags),
      storeAdd (storeAdd s a t1) a t2 = storeAdd s a t1) ∧
    (∀ s : AStore, StoreReachable s → (storeKeys s).Nodup) := by
  refine ⟨?_, ?_, storeKeys_nodup_reachable⟩
  · intro s a t h
    simp [storeAdd, h]
  · intro s a t1 t2
    have h := storeContains_add s a t1
    set s2 := storeAdd s a t1 with hs2
    simp [storeAdd, h]

/-- Witness for `c5_store_dedup`: a second `add` of the same one-entry asset
with different tags changes nothing, and a store reached by one `add` has
distinct keys. -/
theorem c5_store_dedup_witness :
    storeAdd [(⟨[0], []⟩, ["x"])] ⟨[0], []⟩ ["y"] = [(⟨[0], []⟩, ["x"])] ∧
    (storeKeys (applyOp [] (.add ⟨[0], []⟩ ["x"]))).Nodup :=
  ⟨c5_store_dedup.1 [(⟨[0], []⟩, ["x"])] ⟨[0], []⟩ ["y"] (by decide),
   c5_store_dedup.2.2 (applyOp [] (.add ⟨[0], []⟩ ["x"]))
     (StoreReachable.step [] (.add ⟨[0], []⟩ ["x"]) StoreReachable.empty)⟩

/-- C6: store iteration is a point-in-time snapshot — an iterator recorded
at creation holds exactly the assets stored at that instant, and after any
sequence of subsequent `add`/`remove` calls on the same store the recorded
iterator is unchanged (and, being a plain list, its consumption cannot
raise). -/
theorem c6_snapshot_iteration (sess : Session) (ops : List StoreOp) :
    (runOps (takeIter sess) ops).iters = storeSnapshot sess.store :: sess.iters := by
  rw [runOps_iters]
  rfl

/-- C7: `combine` builds the metadata-injection arguments by direct
interpolation — for the `i`-th item `(k, v)` of the `ffmetadata` mapping,
argument `2*i+5` of the command is the literal `-metadata` and argument
`2*i+6` is the literal concatenation `k ++ "=" ++ v`; in particular a value
containing `=`, `;`, `#` or `\` is passed through with no escaping, as the
concrete command for values `a=b` and `x\y` shows. -/
theorem c7_combine_interpolation :
    (∀ (enc tmp : String) (md : List (String × String)) (i : Nat), i < md.length →
      ∃ k v, nth md i = some (k, v) ∧
        nth (combineCommand enc tmp md) (2 * i + 5) = some "-metadata" ∧
        nth (combineCommand enc tmp md) (2 * i + 6) = some (k ++ "=" ++ v)) ∧
    combineCommand "mov" "out.mp4" [("key", "a=b"), ("c;d", "x\\y")] =
      ["ffmpeg", "-loglevel", "error", "-i", "pipe:",
       "-metadata", "key=a=b", "-metadata", "c;d=x\\y",
       "-codec", "copy", "-y", "-f", "mov", "out.mp4"] := by
  constructor
  · intro enc tmp md i h
    obtain ⟨h1, k, v, h2, h3⟩ :=
      metadataArgs_nth md i ["-codec", "copy", "-y", "-f", enc, tmp] h
    exact ⟨k, v, h2, h1, h3⟩
  · rfl

/-- Witness for `c7_combine_interpolation`: the single item `("key", "a=b")`
appears as `-metadata` / `key=a=b` at positions 5 and 6. -/
theorem c7_combine_interpolation_witness :
    ∃ k v, nth [("key", "a=b")] 0 = some (k, v) ∧
      nth (combineCommand "mov" "t" [("key", "a=b")]) 5 = some "-metadata" ∧
      nth (combineCommand "mov" "t" [("key", "a=b")]) 6 = some (k ++ "=" ++ v) :=
  c7_combine_interpolation.1 "mov" "t" [("key", "a=b")] 0 (by decide)

/-- C8 counterexample: the claim fails on the code.  `resize` with
dimensions `12 x -34` raises `ValueError('Invalid dimensions: 12x-34')`,
not `OperatorError` — matching the repository's own test, which expects
`ValueError` for invalid dimensions. -/
theorem c8_counterexample :
    resizeCommand "video/mp4" 12 (-34) "tmp" =
      .error (.valueError "Invalid dimensions: 12x-34") ∧
    isOperatorError (resizeCommand "video/mp4" 12 (-34) "tmp") = false :=
  ⟨rfl, rfl⟩

/-- C8 amended: for every asset (any MIME type, even an unsupported one),
calling resize with width < 1 or height < 1 raises `ValueError` with the
`Invalid dimensions` message, before any other check or transformation is
attempted. -/
theorem c8_amended (mimeType : String) (width height : Int) (tmpName : String)
    (h : width < 1 ∨ height < 1) :
    resizeCommand mimeType width height tmpName =
      .error (.valueError ("Invalid dimensions: " ++ toString width ++ "x" ++
        toString height)) := by
  simp only [resizeCommand]
  rw [if_pos h]

/-- Witness for `c8_amended` at the test's input `12 x -34` (with a MIME
type that is not even in the supported table, showing the dimension check
comes first). -/
theorem c8_amended_witness :
    resizeCommand "application/unknown" 12 (-34) "t" =
      .error (.valueError ("Invalid dimensions: " ++ toString (12 : Int) ++ "x" ++
        toString (-34 : Int))) :=
  c8_amended "application/unknown" 12 (-34) "t" (Or.inr (by decide))

/-- C9: when the same (uppercase) section name appears on two section lines,
the decoded mapping's entry for that name holds exactly the key=value pair
of the last occurrence — the key collected under the earlier occurrence is
discarded, the later section's dict replacing the earlier one. -/
theorem c9_section_replacement (nm other : Chars) (a1 : Char) (k1 v1 : Chars)
    (a2 : Char) (k2 v2 : Chars)
    (hnm0 : nm ≠ []) (hnm : ∀ c ∈ nm, isUpperAZ c = true)
    (hot0 : other ≠ []) (hot : ∀ c ∈ other, isUpperAZ c = true)
    (hne : nm ≠ other)
    (hk1 : ∀ c ∈ a1 :: k1, plainChar c = true) (hv1 : ∀ c ∈ v1, plainChar c = true)
    (hk2 : ∀ c ∈ a2 :: k2, plainChar c = true) (hv2 : ∀ c ∈ v2, plainChar c = true) :
    readLines [";FFMETADATA1".toList,
      '[' :: (nm ++ [']']),
      (a1 :: k1) ++ '=' :: v1,
      '[' :: (other ++ [']']),
      '[' :: (nm ++ [']']),
      (a2 :: k2) ++ '=' :: v2] =
      .ok [(globalSection, []), (nm, [(a2 :: k2, v2)]), (other, [])] := by
  have hgn : globalSection ≠ nm := (upper_ne_global nm hnm0 hnm).symm
  have hgo : globalSection ≠ other := (upper_ne_global other hot0 hot).symm
  have hbody : readMeta [";FFMETADATA1".toList,
      '[' :: (nm ++ [']']),
      (a1 :: k1) ++ '=' :: v1,
      '[' :: (other ++ [']']),
      '[' :: (nm ++ [']']),
      (a2 :: k2) ++ '=' :: v2] [] =
      ([(globalSection, []), (nm, [(a2 :: k2, v2)]), (other, [])], none) := by
    unfold readMeta
    simp only []
    rw [show headerVersion ";FFMETADATA1".toList = some 1 from rfl]
    simp only []
    rw [if_pos (by decide : (1 : Nat) ∈ supportedVersions)]
    rw [sectionLine_step nm _ _ _ _ _ hnm0 hnm,
      kvLine_step a1 k1 v1 _ _ _ _ _ hk1 hv1,
      sectionLine_step other _ _ _ _ _ hot0 hot,
      sectionLine_step nm _ _ _ _ _ hnm0 hnm,
      kvLine_step a2 k2 v2 _ _ _ _ _ hk2 hv2]
    simp only [readBody]
    simp [setKey, hgn, hgo, hne]
  unfold readLines
  rw [hbody]

/-- Witness for `c9_section_replacement`: with sections `[AB]`, `[CD]`,
`[AB]` the decoded entry for `AB` holds only `x=2`; `k=1` from the first
occurrence is gone. -/
theorem c9_section_replacement_witness :
    readLines [";FFMETADATA1".toList,
      '[' :: ("AB".toList ++ [']']),
      ('k' :: []) ++ '=' :: "1".toList,
      '[' :: ("CD".toList ++ [']']),
      '[' :: ("AB".toList ++ [']']),
      ('x' :: []) ++ '=' :: "2".toList] =
      .ok [(globalSection, []), ("AB".toList, [('x' :: [], "2".toList)]),
        ("CD".toList, [])] :=
  c9_section_replacement "AB".toList "CD".toList 'k' [] "1".toList 'x' [] "2".toList
    (by decide) (by decide) (by decide) (by decide) (by decide) (by decide)
    (by decide) (by decide) (by decide)

/-- C10: a dangling continuation at end of input is silently discarded — if
the final line of the body ends in a backslash, decoding behaves exactly as
if that line were absent: the buffered joined content contributes nothing
to the mapping and raises no error. -/
theorem c10_dangling_continuation (first l : Chars) (ls : List Chars)
    (h : endsWithBackslash l = true) :
    readLines (first :: (ls ++ [l])) = readLines (first :: ls) := by
  unfold readLines readMeta
  simp only []
  cases hh : headerVersion first with
  | none => rfl
  | some v =>
      simp only []
      by_cases hv : v ∈ supportedVersions
      · rw [if_pos hv, if_pos hv,
          readBody_dangling ls l globalSection [] [] false [] h]
      · rw [if_neg hv, if_neg hv]

/-- Witness for `c10_dangling_continuation`: the dangling line `k=v\` at the
end of the input changes nothing. -/
theorem c10_dangling_continuation_witness :
    readLines [";FFMETADATA1".toList, "a=b".toList, "k=v\\".toList] =
      readLines [";FFMETADATA1".toList, "a=b".toList] :=
  c10_dangling_continuation ";FFMETADATA1".toList "k=v\\".toList ["a=b".toList]
    (by decide)
